import Mathlib

/-!
Verification development for the TripGuard hybrid-retrieval core
(`src/RAG/retriever.py`, `src/RAG/test_ragas.py`,
`src/RAG/threshold_optimization.py`).

Scores that the Python code keeps as floats are modelled as rationals `ℚ`;
the cross-encoder, the LLM relevance judge and the retrieval backends are
opaque oracles and are passed in as explicit function parameters.
-/

namespace TripGuard

/-- A `langchain` `Document`: text content plus a `source` metadata entry
(`metadata.get("source", ...)` may be absent, hence `Option`). -/
structure Doc where
  content : String
  source : Option String
deriving DecidableEq, Repr

/-- A reranked document carrying its `rerank_score` (the Python code stores
the score in `metadata['rerank_score']` of a copied document). -/
abbrev ScoredDoc := Doc × ℚ

/-! ### Python's stable sort, descending by a rational key

`sorted(xs, key=..., reverse=True)` is a stable sort: elements whose keys
compare equal keep their original relative order, also with `reverse=True`.
We model it as a stable insertion sort. -/

/-- Insert `x` into `l` just before the first element whose key is `≤ key x`.
When `l` is sorted descending this keeps it sorted, and on key ties the
inserted (originally earlier) element ends up first. -/
def insertDesc (key : α → ℚ) (x : α) : List α → List α
  | [] => [x]
  | y :: ys => if key y ≤ key x then x :: y :: ys else y :: insertDesc key x ys

/-- Stable sort descending by `key`: model of Python
`sorted(l, key=key, reverse=True)`. -/
def stableSortDesc (key : α → ℚ) (l : List α) : List α :=
  l.foldr (insertDesc key) []

/-! ### `src/RAG/retriever.py` -/

/-- Constant `RERANK_SCORE_THRESHOLD = 0.5` (retriever.py line 23): default
per-document rerank cutoff. -/
def RERANK_SCORE_THRESHOLD : ℚ := 1/2

/-- Keep the first occurrence of each dedup key, in order: model of the
insertion-ordered `unique_docs` dict of `ensemble_results`. `seen` is the
set of keys already inserted. -/
def dedupKeyed (key : Doc → String) : List Doc → List String → List Doc
  | [], _ => []
  | d :: ds, seen =>
    if key d ∈ seen then dedupKeyed key ds seen
    else d :: dedupKeyed key ds (key d :: seen)

/-- The dedup key of `ensemble_results`: `doc.page_content.strip()`. -/
def dedupKey (d : Doc) : String := d.content.trim

/-- Model of `ensemble_results(vector_docs, keyword_docs)`: iterate
`vector_docs + keyword_docs`, key each document by its stripped content and
keep only the first occurrence of each key (dict insertion order). -/
def ensemble_results (vector_docs keyword_docs : List Doc) : List Doc :=
  dedupKeyed dedupKey (vector_docs ++ keyword_docs) []

/-- Model of `rerank_documents(query, merged_docs, top_k, score_threshold)`: score
every `(query, doc.page_content)` pair with the cross-encoder `oracle`,
stable-sort descending by score, take the first `top_k`, and keep (with its
score attached) each document whose score is `>= score_threshold`.
The surviving pairs are accumulated with a loop append, as in the source. -/
def rerank_documents (oracle : String → String → ℚ) (query : String)
    (merged_docs : List Doc) (top_k : Nat) (score_threshold : ℚ) : List ScoredDoc :=
  if merged_docs = [] then []
  else
    let scored_docs : List ScoredDoc :=
      stableSortDesc (fun p => p.2) (merged_docs.map (fun d => (d, oracle query d.content)))
    (scored_docs.take top_k).foldl
      (fun acc p => if score_threshold ≤ p.2 then acc ++ [p] else acc) []

/-- The spec's description of reranking: sort all candidates descending by
oracle score (stable on ties), truncate to `topK`, keep those whose score is
`>= scoreCutoff` (inclusive boundary), each carrying its score. -/
def rerankSpec (oracle : String → String → ℚ) (query : String)
    (candidates : List Doc) (topK : Nat) (scoreCutoff : ℚ) : List ScoredDoc :=
  ((stableSortDesc (fun p => p.2)
      (candidates.map (fun d => (d, oracle query d.content)))).take topK).filter
    (fun p => scoreCutoff ≤ p.2)

/-- Model of `rerank_documents` with a fallible cross-encoder: in the source the
single call `reranker.score(pairs)` may raise, and `rerank_documents`
contains no exception handler, so a raised exception propagates to the
caller. Modelled with `Except`: the batch oracle either returns all scores
or fails. -/
def rerank_documentsE (oracleE : List (String × String) → Except String (List ℚ))
    (query : String) (merged_docs : List Doc) (top_k : Nat) (score_threshold : ℚ) :
    Except String (List ScoredDoc) :=
  if merged_docs = [] then .ok []
  else
    match oracleE (merged_docs.map (fun d => (query, d.content))) with
    | .error e => .error e
    | .ok scores =>
      let scored_docs : List ScoredDoc :=
        stableSortDesc (fun p => p.2) (merged_docs.zip scores)
      .ok ((scored_docs.take top_k).foldl
        (fun acc p => if score_threshold ≤ p.2 then acc ++ [p] else acc) [])

/-- One formatted block of `query_policy`:
`f"【参考资料 {i + 1}】\n来源: {source}\n内容: {content}"` with `source`
defaulting to `"未知文件"` and the content stripped. -/
def format_entry (i : Nat) (d : ScoredDoc) : String :=
  "【参考资料 " ++ toString (i + 1) ++ "】\n来源: " ++ d.1.source.getD "未知文件"
    ++ "\n内容: " ++ d.1.content.trim

/-- Model of `query_policy(query)`: runs the hybrid pipeline (modelled as an
`Except`-valued outcome, since any internal exception is caught by the
surrounding try/except); on an exception returns the error sentinel, on an
empty result the no-result sentinel, otherwise one block per document
joined with `"\n\n"`. -/
def query_policy (pipeline : Except String (List ScoredDoc)) : String :=
  match pipeline with
  | .error e => "检索系统错误: " ++ e
  | .ok docs =>
    if docs = [] then "未找到相关政策信息。"
    else String.intercalate "\n\n"
      ((docs.enum.map (fun p => format_entry p.1 p.2)))

/-! ### `src/RAG/test_ragas.py`

The LLM relevance judge `llm_judge_relevance(question, ground_truth,
retrieved_context, llm, is_unanswerable)` is an opaque deterministic oracle,
modelled as `judge : Bool → String → String → String → Bool` (the `Bool` is
the `is_unanswerable` flag, the strings are question, ground truth and
retrieved context). -/

/-- Model of `calculate_recall(retrieved_contexts, question, ground_truth,
ground_truth_contexts, llm, k)`. For each ground-truth context the inner
loop marks a match (and breaks) when the judge accepts any of the first `k`
retrieved contexts; the ground-truth context itself is never passed to the
judge. Returns `matches / len(ground_truth_contexts)`. -/
def calculate_recall (judge : Bool → String → String → String → Bool)
    (retrieved_contexts : List String) (question ground_truth : String)
    (ground_truth_contexts : List String) (k : Option Nat) : ℚ :=
  if ground_truth_contexts = [] then 0
  else
    let contexts_to_check := match k with
      | some kv => retrieved_contexts.take kv
      | none => retrieved_contexts
    let num_matches := ground_truth_contexts.countP
      (fun _gt_context => contexts_to_check.any
        (fun ret_context => judge false question ground_truth ret_context))
    (num_matches : ℚ) / (ground_truth_contexts.length : ℚ)

/-- Model of `calculate_precision`: fraction of retrieved contexts the judge accepts. -/
def calculate_precision (judge : Bool → String → String → String → Bool)
    (retrieved_contexts : List String) (question ground_truth : String) : ℚ :=
  if retrieved_contexts = [] then 0
  else
    (retrieved_contexts.countP
        (fun ret_context => judge false question ground_truth ret_context) : ℚ) /
      (retrieved_contexts.length : ℚ)

/-- Helper for `calculate_mrr`: reciprocal rank of the first judged-relevant
context, scanning from 1-based rank `i + 1`. -/
def mrrFrom (judge : Bool → String → String → String → Bool)
    (question ground_truth : String) : List String → Nat → ℚ
  | [], _ => 0
  | c :: cs, i =>
    if judge false question ground_truth c then (1 : ℚ) / (i + 1)
    else mrrFrom judge question ground_truth cs (i + 1)

/-- Model of `calculate_mrr`: `1 / (i + 1)` for the first relevant context at 0-based
index `i`, and `0` when none is relevant. -/
def calculate_mrr (judge : Bool → String → String → String → Bool)
    (retrieved_contexts : List String) (question ground_truth : String) : ℚ :=
  mrrFrom judge question ground_truth retrieved_contexts 0

/-- DCG of a relevance-score list: `rel[0] + Σ_{i≥1} rel[i] · discount i`,
where `discount i` models the float `1 / math.log2(i + 2)` of the source
(the logarithmic weights are irrational, so the discount sequence is kept
as an oracle parameter). -/
def dcgOf (discount : Nat → ℚ) : List ℚ → ℚ
  | [] => 0
  | r0 :: rest => r0 + (rest.enum.map (fun p => p.2 * discount (p.1 + 1))).sum

/-- Model of `calculate_ndcg`: binary relevance gains from the judge, DCG divided by
the ideal DCG (relevances sorted descending), `0` when the ideal DCG is not
positive. -/
def calculate_ndcg (judge : Bool → String → String → String → Bool)
    (discount : Nat → ℚ) (retrieved_contexts : List String)
    (question ground_truth : String) : ℚ :=
  if retrieved_contexts = [] then 0
  else
    let relevance_scores := retrieved_contexts.map
      (fun c => if judge false question ground_truth c then (1 : ℚ) else 0)
    let dcg := dcgOf discount relevance_scores
    let ideal_scores := stableSortDesc (fun x => x) relevance_scores
    let idcg := dcgOf discount ideal_scores
    if 0 < idcg then dcg / idcg else 0

/-- Noise-robustness score of one unanswerable case
(test_ragas.py lines 349-361): look only at the first
`min(k_values)` retrieved contexts (all of them when `k_values` is empty),
score `1.0` when the unanswerable-framing judge marks none of them
relevant, else `0.0`. -/
def noise_robustness_score (judge : Bool → String → String → String → Bool)
    (question ground_truth : String) (retrieved_contexts : List String)
    (k_values : List Nat) : ℚ :=
  let noise_k := match k_values with
    | [] => retrieved_contexts.length
    | k :: ks => ks.foldl Nat.min k
  if (retrieved_contexts.take noise_k).any
      (fun ret_context => judge true question ground_truth ret_context) then 0
  else 1

/-- One test-set entry, `{"question", "ground_truth", "ground_truth_context"}`;
an empty `ground_truth_context` marks the case unanswerable. -/
structure TestCase where
  question : String
  ground_truth : String
  ground_truth_context : List String
deriving DecidableEq, Repr

/-- The accumulating per-mode result record of `evaluate_retrieval_mode`.
`recall_scores` pairs each requested `k` with its `recall@k_scores` list. -/
structure ModeResults where
  answerable_queries : Nat
  unanswerable_queries : Nat
  failed_queries : Nat
  recall_scores : List (Nat × List ℚ)
  precision_scores : List ℚ
  mrr_scores : List ℚ
  ndcg_scores : List ℚ
  noise_robustness_scores : List ℚ
deriving DecidableEq, Repr

/-- Result record before any test case is processed. -/
def initResults (k_values : List Nat) : ModeResults :=
  ⟨0, 0, 0, k_values.map (fun k => (k, [])), [], [], [], []⟩

/-- Processing of a single test case by `evaluate_retrieval_mode`'s loop
body. `retrieval` models the mode's retrieval function, which may raise
(`Except.error`): then `failed_queries` is incremented and worst-case `0.0`
metrics are appended for the case's subset. Otherwise the answerable
metrics, or the unanswerable noise-robustness score, are appended. -/
def processCase (retrieval : String → Except String (List Doc))
    (judge : Bool → String → String → String → Bool) (discount : Nat → ℚ)
    (k_values : List Nat) (r : ModeResults) (item : TestCase) : ModeResults :=
  let is_answerable := item.ground_truth_context ≠ []
  let r := if is_answerable then
      { r with answerable_queries := r.answerable_queries + 1 }
    else
      { r with unanswerable_queries := r.unanswerable_queries + 1 }
  match retrieval item.question with
  | .error _ =>
    if is_answerable then
      { r with failed_queries := r.failed_queries + 1,
               recall_scores := r.recall_scores.map (fun p => (p.1, p.2 ++ [0])),
               precision_scores := r.precision_scores ++ [0],
               mrr_scores := r.mrr_scores ++ [0],
               ndcg_scores := r.ndcg_scores ++ [0] }
    else
      { r with failed_queries := r.failed_queries + 1,
               noise_robustness_scores := r.noise_robustness_scores ++ [0] }
  | .ok retrieved_docs =>
    let retrieved_contexts := retrieved_docs.map (fun d => d.content)
    if is_answerable then
      { r with recall_scores := r.recall_scores.map (fun p =>
                 (p.1, p.2 ++ [calculate_recall judge retrieved_contexts
                   item.question item.ground_truth item.ground_truth_context (some p.1)])),
               precision_scores := r.precision_scores ++
                 [calculate_precision judge retrieved_contexts item.question item.ground_truth],
               mrr_scores := r.mrr_scores ++
                 [calculate_mrr judge retrieved_contexts item.question item.ground_truth],
               ndcg_scores := r.ndcg_scores ++
                 [calculate_ndcg judge discount retrieved_contexts item.question
                   item.ground_truth] }
    else
      { r with noise_robustness_scores := r.noise_robustness_scores ++
                 [noise_robustness_score judge item.question item.ground_truth
                   retrieved_contexts k_values] }

/-- The batch loop of `evaluate_retrieval_mode` over the test data. -/
def evaluate_retrieval_mode (retrieval : String → Except String (List Doc))
    (judge : Bool → String → String → String → Bool) (discount : Nat → ℚ)
    (k_values : List Nat) (test_data : List TestCase) : ModeResults :=
  test_data.foldl (processCase retrieval judge discount k_values) (initResults k_values)

/-- Whether the retrieval call of a test case raises. -/
def retrievalFails (retrieval : String → Except String (List Doc))
    (c : TestCase) : Bool :=
  match retrieval c.question with
  | .error _ => true
  | .ok _ => false

/-! ### `src/RAG/threshold_optimization.py` -/

/-- The whole-query abstention overlay of `evaluate_threshold`
(lines 101-105): when the reranked set is non-empty and its first (top)
document's `rerank_score` is strictly below the swept `threshold`, the
whole result set is discarded and the query counts as rejected. -/
def overlay_rejects (threshold : ℚ) (reranked_docs : List ScoredDoc) : Bool :=
  match reranked_docs with
  | [] => false
  | d :: _ => decide (d.2 < threshold)

/-- Value of `rejected_queries` after `evaluate_threshold` processed `questions`:
per query the merged candidates (`merged q`, the fused vector+BM25 list) are
reranked by `rerank_documents(question, merged_docs, top_k=top_k)` — the
call site omits `score_threshold`, so the default per-document cutoff `0.5`
applies — and then the overlay at the swept `threshold` decides rejection. -/
def rejected_queries (oracle : String → String → ℚ) (merged : String → List Doc)
    (top_k : Nat) (threshold : ℚ) (questions : List String) : Nat :=
  questions.countP (fun q =>
    overlay_rejects threshold
      (rerank_documents oracle q (merged q) top_k RERANK_SCORE_THRESHOLD))

/-- Model of `rejection_rate = rejected_queries / len(test_data)`. -/
def rejection_rate (oracle : String → String → ℚ) (merged : String → List Doc)
    (top_k : Nat) (threshold : ℚ) (questions : List String) : ℚ :=
  if questions = [] then 0
  else (rejected_queries oracle merged top_k threshold questions : ℚ) /
    (questions.length : ℚ)

/-- The per-threshold metrics `find_optimal_threshold` works with:
the swept threshold, its `avg_recall@3` and its `noise_robustness`. -/
structure ThresholdResult where
  threshold : ℚ
  recall3 : ℚ
  noise_robustness : ℚ
deriving DecidableEq, Repr

/-- Model of `combined_score = alpha * recall_score + (1 - alpha) * noise_score`
(threshold_optimization.py line 227). -/
def combined_score (alpha : ℚ) (r : ThresholdResult) : ℚ :=
  alpha * r.recall3 + (1 - alpha) * r.noise_robustness

/-- Python's `max(x :: xs, key=key)`: fold keeping the current best and
replacing it only on a strictly larger key, so the first maximal element
wins ties. -/
def pymaxBy (key : α → ℚ) (x : α) (xs : List α) : α :=
  xs.foldl (fun best y => if key best < key y then y else best) x

/-- Model of `find_optimal_threshold(thresholds, ...)`: evaluate every threshold in
sweep order (`ev t` yields that threshold's `avg_recall@3` and
`noise_robustness`, standing for the expensive `evaluate_threshold` run),
attach `combined_score`, and return the threshold of
`max(all_results, key=lambda x: x['combined_score'])`. `none` only on an
empty sweep (where Python's `max` would raise). -/
def find_optimal_threshold (ev : ℚ → ℚ × ℚ) (alpha : ℚ)
    (thresholds : List ℚ) : Option ℚ :=
  match thresholds.map (fun th => ThresholdResult.mk th (ev th).1 (ev th).2) with
  | [] => none
  | r :: rs => some (pymaxBy (combined_score alpha) r rs).threshold

/-! ### Concrete sample inputs, used by the scenario checks and witnesses -/

/-- Candidate documents for the spec's concrete scenario A. -/
def docA : Doc := ⟨"a", some "f1.md"⟩

def docB : Doc := ⟨"b", some "f2.md"⟩

def docC : Doc := ⟨"c", none⟩

/-- A document whose stripped content collides with `docA`'s dedup key. -/
def docA2 : Doc := ⟨" a ", some "f3.md"⟩

/-- A cross-encoder oracle giving scores `[0.8, 0.6, 0.3]` to
`docA`, `docB`, `docC` (scenario A). -/
def oracleA : String → String → ℚ := fun _ content =>
  if content = "a" then 4/5 else if content = "b" then 3/5 else 3/10

/-- A cross-encoder batch call that always raises. -/
def failingOracle : List (String × String) → Except String (List ℚ) :=
  fun _ => .error "boom"

/-- A relevance judge accepting exactly the retrieved context `"hit"`. -/
def judgeHit : Bool → String → String → String → Bool :=
  fun _ _ _ ret_context => ret_context = "hit"

/-- A relevance judge rejecting everything. -/
def judgeNone : Bool → String → String → String → Bool :=
  fun _ _ _ _ => false

/-- A retrieval backend that always raises. -/
def failRetrieval : String → Except String (List Doc) :=
  fun _ => .error "db down"

/-- An answerable test case. -/
def caseAns : TestCase := ⟨"q1", "gt1", ["ctx1"]⟩

/-- An unanswerable test case (empty ground-truth context). -/
def caseUnans : TestCase := ⟨"q2", "", []⟩

/-! ### Supporting lemmas -/

theorem mem_insertDesc {key : α → ℚ} {x z : α} {l : List α} :
    z ∈ insertDesc key x l ↔ z = x ∨ z ∈ l := by
  induction l with
  | nil => simp [insertDesc]
  | cons y ys ih =>
    by_cases h : key y ≤ key x
    · simp [insertDesc, h]
    · simp [insertDesc, h, ih]
      tauto

theorem insertDesc_perm (key : α → ℚ) (x : α) (l : List α) :
    List.Perm (insertDesc key x l) (x :: l) := by
  induction l with
  | nil => simp [insertDesc]
  | cons y ys ih =>
    by_cases h : key y ≤ key x
    · simp [insertDesc, h]
    · rw [insertDesc, if_neg h]
      exact (List.Perm.cons y ih).trans (List.Perm.swap x y ys)

theorem stableSortDesc_perm (key : α → ℚ) (l : List α) :
    List.Perm (stableSortDesc key l) l := by
  induction l with
  | nil => simp [stableSortDesc]
  | cons x xs ih =>
    have : stableSortDesc key (x :: xs) = insertDesc key x (stableSortDesc key xs) := rfl
    rw [this]
    exact (insertDesc_perm key x _).trans (List.Perm.cons x ih)

theorem pairwise_insertDesc {key : α → ℚ} {x : α} {l : List α}
    (h : l.Pairwise (fun a b => key b ≤ key a)) :
    (insertDesc key x l).Pairwise (fun a b => key b ≤ key a) := by
  induction l with
  | nil => simp [insertDesc]
  | cons y ys ih =>
    rcases List.pairwise_cons.mp h with ⟨hy, hys⟩
    by_cases hxy : key y ≤ key x
    · rw [insertDesc, if_pos hxy]
      refine List.pairwise_cons.mpr ⟨?_, h⟩
      intro z hz
      rcases List.mem_cons.mp hz with rfl | hz
      · exact hxy
      · exact (hy z hz).trans hxy
    · rw [insertDesc, if_neg hxy]
      refine List.pairwise_cons.mpr ⟨?_, ih hys⟩
      intro z hz
      rcases mem_insertDesc.mp hz with rfl | hz
      · exact le_of_lt (lt_of_not_le hxy)
      · exact hy z hz

/-- The output of `stableSortDesc` is sorted descending by key. -/
theorem pairwise_stableSortDesc (key : α → ℚ) (l : List α) :
    (stableSortDesc key l).Pairwise (fun a b => key b ≤ key a) := by
  induction l with
  | nil => simp [stableSortDesc]
  | cons x xs ih => exact pairwise_insertDesc ih

theorem filter_insertDesc_of_gt {key : α → ℚ} {x : α} {c : ℚ} (l : List α)
    (hx : key x ≠ c) :
    (insertDesc key x l).filter (fun a => key a = c) =
      l.filter (fun a => key a = c) := by
  induction l with
  | nil => simp [insertDesc, hx]
  | cons y ys ih =>
    by_cases h : key y ≤ key x
    · rw [insertDesc, if_pos h]
      simp [List.filter, hx]
    · rw [insertDesc, if_neg h]
      by_cases hy : key y = c
      · rw [List.filter_cons_of_pos (by simp [hy]), List.filter_cons_of_pos (by simp [hy]), ih]
      · rw [List.filter_cons_of_neg (by simp [hy]), List.filter_cons_of_neg (by simp [hy]), ih]

theorem filter_insertDesc_of_eq {key : α → ℚ} {x : α} {c : ℚ} {l : List α}
    (hx : key x = c) (hl : l.Pairwise (fun a b => key b ≤ key a)) :
    (insertDesc key x l).filter (fun a => key a = c) =
      x :: l.filter (fun a => key a = c) := by
  induction l with
  | nil => simp [insertDesc, hx]
  | cons y ys ih =>
    rcases List.pairwise_cons.mp hl with ⟨hy, hys⟩
    by_cases h : key y ≤ key x
    · rw [insertDesc, if_pos h]
      simp [List.filter, hx]
    · rw [insertDesc, if_neg h]
      have hyc : key y ≠ c := by
        intro hc; exact h (by rw [hc, ← hx])
      rw [List.filter_cons_of_neg (by simp [hyc]), List.filter_cons_of_neg (by simp [hyc]),
        ih hys]

/-- Stability: the subsequence of elements at any fixed key value `c` is
unchanged by the descending sort — ties keep the original relative order. -/
theorem stableSortDesc_stable (key : α → ℚ) (l : List α) (c : ℚ) :
    (stableSortDesc key l).filter (fun a => key a = c) =
      l.filter (fun a => key a = c) := by
  induction l with
  | nil => simp [stableSortDesc]
  | cons x xs ih =>
    have hrw : stableSortDesc key (x :: xs) = insertDesc key x (stableSortDesc key xs) := rfl
    by_cases hx : key x = c
    · rw [hrw, filter_insertDesc_of_eq hx (pairwise_stableSortDesc key xs), ih]
      simp [List.filter, hx]
    · rw [hrw, filter_insertDesc_of_gt _ hx, ih]
      simp [List.filter, hx]

/-! #### Facts about the reranker -/

theorem foldl_filter_append (p : β → Prop) [DecidablePred p] :
    ∀ (l : List β) (acc : List β),
      l.foldl (fun acc x => if p x then acc ++ [x] else acc) acc =
        acc ++ l.filter (fun x => decide (p x)) := by
  intro l
  induction l with
  | nil => intro acc; simp
  | cons x xs ih =>
    intro acc
    by_cases hx : p x
    · rw [List.foldl_cons, if_pos hx, ih, List.filter_cons_of_pos (by simp [hx])]
      simp
    · rw [List.foldl_cons, if_neg hx, ih, List.filter_cons_of_neg (by simp [hx])]

/-- The function `rerank_documents` computes exactly the sort-truncate-filter pipeline. -/
theorem rerank_documents_eq_spec (oracle : String → String → ℚ) (query : String)
    (docs : List Doc) (top_k : Nat) (cutoff : ℚ) :
    rerank_documents oracle query docs top_k cutoff =
      rerankSpec oracle query docs top_k cutoff := by
  by_cases h : docs = []
  · subst h
    simp [rerank_documents, rerankSpec, stableSortDesc]
  · rw [rerank_documents, if_neg h, rerankSpec]
    exact foldl_filter_append (fun p : ScoredDoc => cutoff ≤ p.2) _ []

/-- Every score surviving the reranker is at least the cutoff. -/
theorem rerank_documents_score_ge (oracle : String → String → ℚ) (query : String)
    (docs : List Doc) (top_k : Nat) (cutoff : ℚ) :
    ∀ p ∈ rerank_documents oracle query docs top_k cutoff, cutoff ≤ p.2 := by
  intro p hp
  rw [rerank_documents_eq_spec] at hp
  have := List.of_mem_filter hp
  simpa using this

/-- The reranker's output is sorted descending by score. -/
theorem rerank_documents_sorted (oracle : String → String → ℚ) (query : String)
    (docs : List Doc) (top_k : Nat) (cutoff : ℚ) :
    (rerank_documents oracle query docs top_k cutoff).Pairwise
      (fun a b : ScoredDoc => b.2 ≤ a.2) := by
  rw [rerank_documents_eq_spec, rerankSpec]
  exact ((pairwise_stableSortDesc (fun p : ScoredDoc => p.2) _).take).filter _

/-! #### Facts about the fuser -/

theorem dedupKeyed_sublist (key : Doc → String) :
    ∀ (l : List Doc) (seen : List String), (dedupKeyed key l seen).Sublist l := by
  intro l
  induction l with
  | nil => intro seen; simp [dedupKeyed]
  | cons d ds ih =>
    intro seen
    rw [dedupKeyed]
    by_cases h : key d ∈ seen
    · rw [if_pos h]
      exact (ih seen).cons d
    · rw [if_neg h]
      exact (ih (key d :: seen)).cons₂ d

theorem dedupKeyed_key_not_seen (key : Doc → String) :
    ∀ (l : List Doc) (seen : List String) (x : Doc),
      x ∈ dedupKeyed key l seen → key x ∉ seen := by
  intro l
  induction l with
  | nil => intro seen x hx; simp [dedupKeyed] at hx
  | cons d ds ih =>
    intro seen x hx
    rw [dedupKeyed] at hx
    by_cases h : key d ∈ seen
    · rw [if_pos h] at hx
      exact ih seen x hx
    · rw [if_neg h] at hx
      rcases List.mem_cons.mp hx with rfl | hx
      · exact h
      · intro hmem
        exact ih (key d :: seen) x hx (List.mem_cons_of_mem _ hmem)

theorem dedupKeyed_pairwise (key : Doc → String) :
    ∀ (l : List Doc) (seen : List String),
      (dedupKeyed key l seen).Pairwise (fun a b => key a ≠ key b) := by
  intro l
  induction l with
  | nil => intro seen; simp [dedupKeyed]
  | cons d ds ih =>
    intro seen
    rw [dedupKeyed]
    by_cases h : key d ∈ seen
    · rw [if_pos h]; exact ih seen
    · rw [if_neg h]
      refine List.pairwise_cons.mpr ⟨?_, ih (key d :: seen)⟩
      intro x hx hkey
      exact dedupKeyed_key_not_seen key ds (key d :: seen) x hx
        (by rw [← hkey]; exact List.mem_cons_self _ _)

theorem dedupKeyed_fixed (key : Doc → String) :
    ∀ (l : List Doc) (seen : List String),
      l.Pairwise (fun a b => key a ≠ key b) →
      (∀ x ∈ l, key x ∉ seen) →
      dedupKeyed key l seen = l := by
  intro l
  induction l with
  | nil => intro seen _ _; rfl
  | cons d ds ih =>
    intro seen hpw hseen
    rcases List.pairwise_cons.mp hpw with ⟨hd, hds⟩
    rw [dedupKeyed, if_neg (hseen d (List.mem_cons_self _ _))]
    congr 1
    refine ih (key d :: seen) hds ?_
    intro x hx
    intro hmem
    rcases List.mem_cons.mp hmem with hkey | hkey
    · exact hd x hx hkey.symm
    · exact hseen x (List.mem_cons_of_mem _ hx) hkey

theorem dedupKeyed_covers (key : Doc → String) :
    ∀ (l : List Doc) (seen : List String) (x : Doc), x ∈ l →
      key x ∈ seen ∨ ∃ y ∈ dedupKeyed key l seen, key y = key x := by
  intro l
  induction l with
  | nil => intro seen x hx; simp at hx
  | cons d ds ih =>
    intro seen x hx
    rw [dedupKeyed]
    by_cases h : key d ∈ seen
    · rw [if_pos h]
      rcases List.mem_cons.mp hx with rfl | hx
      · exact Or.inl h
      · exact ih seen x hx
    · rw [if_neg h]
      rcases List.mem_cons.mp hx with rfl | hx
      · exact Or.inr ⟨x, List.mem_cons_self _ _, rfl⟩
      · rcases ih (key d :: seen) x hx with hmem | ⟨y, hy, hkey⟩
        · rcases List.mem_cons.mp hmem with hkey | hmem
          · exact Or.inr ⟨d, List.mem_cons_self _ _, hkey.symm⟩
          · exact Or.inl hmem
        · exact Or.inr ⟨y, List.mem_cons_of_mem _ hy, hkey⟩

theorem dedupKeyed_first_occurrence (key : Doc → String) :
    ∀ (l : List Doc) (seen : List String) (y : Doc), y ∈ dedupKeyed key l seen →
      l.find? (fun z => key z = key y) = some y := by
  intro l
  induction l with
  | nil => intro seen y hy; simp [dedupKeyed] at hy
  | cons d ds ih =>
    intro seen y hy
    rw [dedupKeyed] at hy
    by_cases h : key d ∈ seen
    · rw [if_pos h] at hy
      have hne : key d ≠ key y := by
        intro hkey
        exact dedupKeyed_key_not_seen key ds seen y hy (hkey ▸ h)
      rw [List.find?_cons_of_neg _ (by simp [hne]), ih seen y hy]
    · rw [if_neg h] at hy
      rcases List.mem_cons.mp hy with rfl | hy
      · rw [List.find?_cons_of_pos _ (by simp)]
      · have hny : key y ∉ (key d :: seen) :=
          dedupKeyed_key_not_seen key ds (key d :: seen) y hy
        have hne : key d ≠ key y := by
          intro hkey
          exact hny (hkey ▸ List.mem_cons_self _ _)
        rw [List.find?_cons_of_neg _ (by simp [hne]), ih (key d :: seen) y hy]

/-- Python's `max` returns an element splitting the list into a strictly
smaller prefix, the maximum itself, and a no-larger suffix: the first
occurrence of the maximal key. -/
theorem pymaxBy_spec (key : α → ℚ) (x : α) (xs : List α) :
    ∃ l₁ l₂, x :: xs = l₁ ++ pymaxBy key x xs :: l₂ ∧
      (∀ y ∈ x :: xs, key y ≤ key (pymaxBy key x xs)) ∧
      (∀ y ∈ l₁, key y < key (pymaxBy key x xs)) := by
  induction xs generalizing x with
  | nil =>
    refine ⟨[], [], rfl, ?_, by simp⟩
    intro y hy
    rcases List.mem_cons.mp hy with rfl | hy
    · exact le_refl _
    · simp at hy
  | cons y ys ih =>
    by_cases hxy : key x < key y
    · have hfold : pymaxBy key x (y :: ys) = pymaxBy key y ys := by
        simp [pymaxBy, hxy]
      obtain ⟨l₁, l₂, hdec, hle, hlt⟩ := ih y
      refine ⟨x :: l₁, l₂, ?_, ?_, ?_⟩
      · rw [hfold, List.cons_append, ← hdec]
      · intro z hz
        rw [hfold]
        rcases List.mem_cons.mp hz with rfl | hz
        · exact le_of_lt (lt_of_lt_of_le hxy (hle y (List.mem_cons_self _ _)))
        · exact hle z hz
      · intro z hz
        rw [hfold]
        rcases List.mem_cons.mp hz with rfl | hz
        · exact lt_of_lt_of_le hxy (hle y (List.mem_cons_self _ _))
        · exact hlt z hz
    · have hfold : pymaxBy key x (y :: ys) = pymaxBy key x ys := by
        simp [pymaxBy, hxy]
      obtain ⟨l₁, l₂, hdec, hle, hlt⟩ := ih x
      cases l₁ with
      | nil =>
        have hx : pymaxBy key x ys = x := by
          have := hdec
          simp at this
          exact this.1.symm
        refine ⟨[], y :: ys, by simp [hfold, hx], ?_, by simp⟩
        intro z hz
        rw [hfold, hx]
        rcases List.mem_cons.mp hz with rfl | hz
        · exact le_refl _
        · rcases List.mem_cons.mp hz with rfl | hz
          · exact le_of_not_lt hxy
          · have := hle z (List.mem_cons_of_mem _ hz)
            rwa [hx] at this
      | cons a l₁' =>
        have ha : a = x ∧ ys = l₁' ++ pymaxBy key x ys :: l₂ := by
          have := hdec
          rw [List.cons_append] at this
          exact ⟨(List.cons.injEq _ _ _ _ ▸ this).1.symm,
            (List.cons.injEq _ _ _ _ ▸ this).2⟩
        refine ⟨x :: y :: l₁', l₂, ?_, ?_, ?_⟩
        · rw [hfold, List.cons_append, List.cons_append, ← ha.2]
        · intro z hz
          rw [hfold]
          rcases List.mem_cons.mp hz with rfl | hz
          · exact hle z (List.mem_cons_self _ _)
          · rcases List.mem_cons.mp hz with rfl | hz
            · exact le_trans (le_of_not_lt hxy) (hle x (List.mem_cons_self _ _))
            · exact hle z (List.mem_cons_of_mem _ hz)
        · intro z hz
          rw [hfold]
          have hxlt : key x < key (pymaxBy key x ys) := by
            have := hlt a (by rw [ha.1]; exact List.mem_cons_self _ _)
            rwa [ha.1] at this
          rcases List.mem_cons.mp hz with rfl | hz
          · exact hxlt
          · rcases List.mem_cons.mp hz with rfl | hz
            · exact lt_of_le_of_lt (le_of_not_lt hxy) hxlt
            · exact hlt z (List.mem_cons_of_mem _ hz)

/-- The fold `pymaxBy` commutes with mapping, when the key factors through the map. -/
theorem pymaxBy_map (key : β → ℚ) (f : α → β) (x : α) (xs : List α) :
    pymaxBy key (f x) (xs.map f) = f (pymaxBy (fun a => key (f a)) x xs) := by
  induction xs generalizing x with
  | nil => rfl
  | cons y ys ih =>
    simp only [List.map_cons, pymaxBy, List.foldl_cons]
    by_cases h : key (f x) < key (f y)
    · rw [if_pos h, if_pos h]
      exact ih y
    · rw [if_neg h, if_neg h]
      exact ih x

/-! ### Claim theorems -/

/-- C1: for every query and non-empty candidate list,
`rerank_documents(query, candidates, topK, scoreCutoff)` returns exactly the
candidates obtained by stable-sorting descending by oracle score, truncating
to `topK`, and keeping (score attached) those whose score is `>= scoreCutoff`
(inclusive boundary); the output is sorted descending, ties of the sort keep
original relative order, and on scores `[0.8, 0.6, 0.3]` with `topK = 3`,
`scoreCutoff = 0.5` the output is exactly the first two candidates with their
scores. -/
theorem rerank_is_sort_truncate_cutoff (oracle : String → String → ℚ)
    (query : String) (candidates : List Doc) (topK : Nat) (scoreCutoff : ℚ)
    (hne : candidates ≠ []) :
    rerank_documents oracle query candidates topK scoreCutoff =
      rerankSpec oracle query candidates topK scoreCutoff ∧
    (rerank_documents oracle query candidates topK scoreCutoff).Pairwise
      (fun a b : ScoredDoc => b.2 ≤ a.2) ∧
    (∀ p ∈ rerank_documents oracle query candidates topK scoreCutoff,
      scoreCutoff ≤ p.2) ∧
    (∀ c : ℚ,
      (stableSortDesc (fun p : ScoredDoc => p.2)
          (candidates.map (fun d => (d, oracle query d.content)))).filter
          (fun p => p.2 = c) =
        (candidates.map (fun d => (d, oracle query d.content))).filter
          (fun p => p.2 = c)) ∧
    rerank_documents oracleA "q" [docA, docB, docC] 3 (1/2) =
      [(docA, 4/5), (docB, 3/5)] := by
  refine ⟨rerank_documents_eq_spec oracle query candidates topK scoreCutoff,
    rerank_documents_sorted oracle query candidates topK scoreCutoff,
    rerank_documents_score_ge oracle query candidates topK scoreCutoff,
    fun c => stableSortDesc_stable _ _ c, ?_⟩
  show rerank_documents oracleA "q" [docA, docB, docC] 3 (1/2) =
    [(docA, 4/5), (docB, 3/5)]
  simp [rerank_documents, stableSortDesc, insertDesc, oracleA, docA, docB, docC]
  norm_num [insertDesc]

/-- Witness for C1 at the concrete scenario-A input. -/
theorem rerank_is_sort_truncate_cutoff_witness :
    [docA, docB, docC] ≠ ([] : List Doc) ∧
    rerank_documents oracleA "q" [docA, docB, docC] 3 (1/2) =
      rerankSpec oracleA "q" [docA, docB, docC] 3 (1/2) :=
  ⟨by simp,
    (rerank_is_sort_truncate_cutoff oracleA "q" [docA, docB, docC] 3 (1/2)
      (by simp)).1⟩

/-- C10: cutoff monotonicity — for fixed oracle scores, query, candidates
and `topK`, every candidate surviving the rerank at the higher cutoff also
survives at the lower cutoff. -/
theorem rerank_cutoff_monotone (oracle : String → String → ℚ) (query : String)
    (candidates : List Doc) (topK : Nat) (c1 c2 : ℚ) (h : c1 < c2) :
    ∀ p ∈ rerank_documents oracle query candidates topK c2,
      p ∈ rerank_documents oracle query candidates topK c1 := by
  intro p hp
  rw [rerank_documents_eq_spec, rerankSpec] at hp ⊢
  rcases List.mem_filter.mp hp with ⟨hmem, hc⟩
  refine List.mem_filter.mpr ⟨hmem, ?_⟩
  simp only [decide_eq_true_eq] at hc ⊢
  exact le_trans (le_of_lt h) hc

/-- Witness for C10: `docA` (score 0.8) survives at cutoff 0.7, hence also
at cutoff 0.5. -/
theorem rerank_cutoff_monotone_witness :
    (docA, (4 : ℚ)/5) ∈ rerank_documents oracleA "q" [docA, docB, docC] 3 (1/2) :=
  rerank_cutoff_monotone oracleA "q" [docA, docB, docC] 3 (1/2) (7/10)
    (by norm_num) (docA, 4/5)
    (by simp [rerank_documents, stableSortDesc, insertDesc, oracleA, docA, docB, docC]
        norm_num [insertDesc])

/-- C2 counterexample: with a concrete failing cross-encoder and one
candidate, the rerank call propagates the error — it does NOT return an
empty candidate list, refuting the claim that the exception is caught at the
Reranker boundary. -/
theorem rerank_oracle_failure_not_empty :
    rerank_documentsE failingOracle "q" [docA] 3 (1/2) = .error "boom" ∧
    rerank_documentsE failingOracle "q" [docA] 3 (1/2) ≠ .ok [] := by
  refine ⟨by rfl, ?_⟩
  intro hcontra
  rw [show rerank_documentsE failingOracle "q" [docA] 3 (1/2) = .error "boom" from rfl]
    at hcontra
  exact Except.noConfusion hcontra

/-- C2 (amended): a cross-encoder exception during rerank propagates out of
`rerank_documents` to its caller; the policy-lookup entry point
(`query_policy`) then catches it and returns the error sentinel string — not
an empty candidate list. -/
theorem rerank_oracle_failure_propagates
    (oracleE : List (String × String) → Except String (List ℚ))
    (query : String) (docs : List Doc) (top_k : Nat) (cutoff : ℚ) (e : String)
    (hne : docs ≠ [])
    (hfail : oracleE (docs.map (fun d => (query, d.content))) = .error e) :
    rerank_documentsE oracleE query docs top_k cutoff = .error e ∧
    query_policy (rerank_documentsE oracleE query docs top_k cutoff) =
      "检索系统错误: " ++ e := by
  have h1 : rerank_documentsE oracleE query docs top_k cutoff = .error e := by
    rw [rerank_documentsE, if_neg hne, hfail]
  exact ⟨h1, by rw [h1, query_policy]⟩

/-- Witness for the amended C2 at the concrete failing oracle. -/
theorem rerank_oracle_failure_propagates_witness :
    rerank_documentsE failingOracle "q" [docA] 3 (1/2) = .error "boom" ∧
    query_policy (rerank_documentsE failingOracle "q" [docA] 3 (1/2)) =
      "检索系统错误: " ++ "boom" :=
  rerank_oracle_failure_propagates failingOracle "q" [docA] 3 (1/2) "boom"
    (by simp) (by rfl)

/-- C9: `query_policy` is total over every pipeline outcome — an internal
exception yields the error sentinel, an empty surviving set yields the
no-result sentinel, and a non-empty set yields one block per passage with a
1-based rank label, the source label and the stripped text, joined by blank
lines. -/
theorem query_policy_characterization :
    (∀ e, query_policy (.error e) = "检索系统错误: " ++ e) ∧
    query_policy (.ok []) = "未找到相关政策信息。" ∧
    (∀ docs : List ScoredDoc, docs ≠ [] →
      query_policy (.ok docs) = String.intercalate "\n\n"
        (((List.range docs.length).zip docs).map (fun p =>
          "【参考资料 " ++ toString (p.1 + 1) ++ "】\n来源: "
            ++ p.2.1.source.getD "未知文件" ++ "\n内容: " ++ p.2.1.content.trim))) := by
  refine ⟨fun e => rfl, rfl, fun docs hne => ?_⟩
  rw [query_policy, if_neg hne, List.enum_eq_zip_range]
  rfl

/-- Witness for C9's non-empty branch at a concrete passage. -/
theorem query_policy_characterization_witness :
    ([(docA, (4 : ℚ)/5)] : List ScoredDoc) ≠ [] ∧
    query_policy (.ok [(docA, (4 : ℚ)/5)]) = String.intercalate "\n\n"
      (((List.range ([(docA, (4 : ℚ)/5)] : List ScoredDoc).length).zip
          [(docA, (4 : ℚ)/5)]).map (fun p =>
        "【参考资料 " ++ toString (p.1 + 1) ++ "】\n来源: "
          ++ p.2.1.source.getD "未知文件" ++ "\n内容: " ++ p.2.1.content.trim)) :=
  ⟨by simp, query_policy_characterization.2.2 [(docA, 4/5)] (by simp)⟩

/-- C6: the Fuser merge is idempotent under re-merging
(`merge(merge(A,B),[]) = merge(A,B)`); merging a list with itself yields no
duplicate dedup keys; the merge iterates semantic results then lexical
results in original order (its output is an order-preserving sublist of
`A ++ B`), every input key is represented, and each kept passage is the
first occurrence of its trimmed-content key in `A ++ B`. -/
theorem fuser_merge_idempotent (A B : List Doc) :
    ensemble_results (ensemble_results A B) [] = ensemble_results A B ∧
    (ensemble_results A A).Pairwise (fun a b => dedupKey a ≠ dedupKey b) ∧
    (ensemble_results A B).Sublist (A ++ B) ∧
    (∀ x ∈ A ++ B, ∃ y ∈ ensemble_results A B, dedupKey y = dedupKey x) ∧
    (∀ y ∈ ensemble_results A B,
      (A ++ B).find? (fun z => dedupKey z = dedupKey y) = some y) := by
  refine ⟨?_, dedupKeyed_pairwise dedupKey _ _, dedupKeyed_sublist dedupKey _ _,
    ?_, ?_⟩
  · show dedupKeyed dedupKey (ensemble_results A B ++ []) [] = ensemble_results A B
    rw [List.append_nil]
    exact dedupKeyed_fixed dedupKey _ [] (dedupKeyed_pairwise dedupKey _ _)
      (fun x _ => List.not_mem_nil _)
  · intro x hx
    rcases dedupKeyed_covers dedupKey (A ++ B) [] x hx with hmem | h
    · exact absurd hmem (List.not_mem_nil _)
    · exact h
  · intro y hy
    exact dedupKeyed_first_occurrence dedupKey (A ++ B) [] y hy

/-- Witness for C6: in the concrete merge of `[docA, docA2]` (same trimmed
content) with `[docB]`, the key of the dropped duplicate `docA2` is still
represented by a kept passage. -/
theorem fuser_merge_idempotent_witness :
    ∃ y ∈ ensemble_results [docA, docA2] [docB], dedupKey y = dedupKey docA2 :=
  (fuser_merge_idempotent [docA, docA2] [docB]).2.2.2.1 docA2 (by simp)

/-- C3: over a non-empty sweep list, the Threshold Optimizer returns a
threshold whose `combinedScore = alpha * Recall@3 + (1-alpha) * NoiseRobustness`
is maximal, and every threshold strictly before it in sweep order has a
strictly smaller combined score (first-encountered tie-break); when the
sweep list is strictly ascending, ties are thereby broken in favor of the
lowest cutoff. -/
theorem optimizer_selects_first_max_combined (ev : ℚ → ℚ × ℚ) (alpha : ℚ)
    (thresholds : List ℚ) (hne : thresholds ≠ []) :
    ∃ t, find_optimal_threshold ev alpha thresholds = some t ∧
      (∀ t' ∈ thresholds,
        combined_score alpha ⟨t', (ev t').1, (ev t').2⟩ ≤
          combined_score alpha ⟨t, (ev t).1, (ev t).2⟩) ∧
      (∃ l₁ l₂, thresholds = l₁ ++ t :: l₂ ∧
        ∀ t' ∈ l₁, combined_score alpha ⟨t', (ev t').1, (ev t').2⟩ <
          combined_score alpha ⟨t, (ev t).1, (ev t).2⟩) ∧
      (thresholds.Pairwise (· < ·) →
        ∀ t' ∈ thresholds,
          combined_score alpha ⟨t', (ev t').1, (ev t').2⟩ =
            combined_score alpha ⟨t, (ev t).1, (ev t).2⟩ → t ≤ t') := by
  match thresholds, hne with
  | t0 :: ts, _ =>
    set f : ℚ → ThresholdResult := fun th => ThresholdResult.mk th (ev th).1 (ev th).2
      with hf
    set keyq : ℚ → ℚ := fun th => combined_score alpha ⟨th, (ev th).1, (ev th).2⟩
      with hkeyq
    have hkey : ∀ th, combined_score alpha (f th) = keyq th := fun th => rfl
    have hopt : find_optimal_threshold ev alpha (t0 :: ts) =
        some (pymaxBy (combined_score alpha) (f t0) (ts.map f)).threshold := by
      rw [find_optimal_threshold, List.map_cons]
    have hmap : pymaxBy (combined_score alpha) (f t0) (ts.map f) =
        f (pymaxBy keyq t0 ts) := by
      rw [pymaxBy_map (combined_score alpha) f t0 ts]
    set t := pymaxBy keyq t0 ts with ht
    obtain ⟨l₁, l₂, hdec, hle, hlt⟩ := pymaxBy_spec keyq t0 ts
    refine ⟨t, ?_, ?_, ⟨l₁, l₂, by rw [hdec], ?_⟩, ?_⟩
    · rw [hopt, hmap]
    · intro t' ht'
      exact hle t' (by rw [hdec]; rw [hdec] at ht'; exact ht')
    · intro t' ht'
      exact hlt t' ht'
    · intro hsorted t' ht' heq
      have hdec' : t0 :: ts = l₁ ++ t :: l₂ := hdec
      rcases (List.mem_append.mp (by rw [← hdec']; exact ht')) with h1 | h2
      · exact absurd heq (ne_of_lt (hlt t' h1))
      · rcases List.mem_cons.mp h2 with rfl | h2
        · exact le_refl _
        · have hpw : (l₁ ++ t :: l₂).Pairwise (· < ·) := by rw [← hdec']; exact hsorted
          exact le_of_lt ((List.pairwise_cons.mp
            (List.Pairwise.sublist (List.sublist_append_right l₁ (t :: l₂)) hpw)).1 t' h2)

/-- Witness for C3 on the concrete ascending sweep `[0.1, 0.5, 0.9]`. -/
theorem optimizer_selects_first_max_combined_witness :
    ([ (1:ℚ)/10, 5/10, 9/10 ] : List ℚ) ≠ [] ∧
    ∃ t, find_optimal_threshold (fun th => (1 - th, th)) (6/10)
        [ (1:ℚ)/10, 5/10, 9/10 ] = some t ∧
      (∀ t' ∈ ([ (1:ℚ)/10, 5/10, 9/10 ] : List ℚ),
        combined_score (6/10) ⟨t', ((fun th => ((1:ℚ) - th, th)) t').1,
            ((fun th => ((1:ℚ) - th, th)) t').2⟩ ≤
          combined_score (6/10) ⟨t, ((fun th => ((1:ℚ) - th, th)) t).1,
            ((fun th => ((1:ℚ) - th, th)) t).2⟩) := by
  refine ⟨by simp, ?_⟩
  obtain ⟨t, hopt, hmax, _, _⟩ :=
    optimizer_selects_first_max_combined (fun th => (1 - th, th)) (6/10)
      [ (1:ℚ)/10, 5/10, 9/10 ] (by simp)
  exact ⟨t, hopt, hmax⟩

/-- Counting with a constant predicate: all or nothing. -/
theorem countP_const (c : Bool) (l : List α) :
    l.countP (fun _ => c) = if c then l.length else 0 := by
  cases c with
  | true => simp [List.countP_eq_length]
  | false => simp [List.countP_eq_zero]

/-- The value of `calculate_recall` on a non-empty reference set collapses to a single
indicator: the judge's verdict does not depend on the individual reference
context, which is never passed to it. -/
theorem calculate_recall_const (judge : Bool → String → String → String → Bool)
    (retrieved : List String) (question ground_truth : String)
    (gtcs : List String) (k : Option Nat) (hne : gtcs ≠ []) :
    calculate_recall judge retrieved question ground_truth gtcs k =
      if (match k with
          | some kv => retrieved.take kv
          | none => retrieved).any
          (fun ret_context => judge false question ground_truth ret_context)
      then 1 else 0 := by
  have hlen : (gtcs.length : ℚ) ≠ 0 :=
    Nat.cast_ne_zero.mpr (Nat.pos_iff_ne_zero.mp (List.length_pos.mpr hne))
  simp only [calculate_recall, if_neg hne]
  rw [countP_const]
  cases hc : (match k with
      | some kv => retrieved.take kv
      | none => retrieved).any
      (fun ret_context => judge false question ground_truth ret_context) with
  | true => simp [div_self hlen]
  | false => simp

/-- The `failed_queries` effect of one loop iteration. -/
theorem processCase_failed_queries (retrieval : String → Except String (List Doc))
    (judge : Bool → String → String → String → Bool) (discount : Nat → ℚ)
    (k_values : List Nat) (r : ModeResults) (item : TestCase) :
    (processCase retrieval judge discount k_values r item).failed_queries =
      r.failed_queries + (if retrievalFails retrieval item then 1 else 0) := by
  cases hret : retrieval item.question with
  | error e =>
    by_cases hans : item.ground_truth_context ≠ [] <;>
      simp [processCase, retrievalFails, hret, hans]
  | ok docs =>
    by_cases hans : item.ground_truth_context ≠ [] <;>
      simp [processCase, retrievalFails, hret, hans]

/-- Failures accumulate additively over the batch loop. -/
theorem foldl_processCase_failed_queries (retrieval : String → Except String (List Doc))
    (judge : Bool → String → String → String → Bool) (discount : Nat → ℚ)
    (k_values : List Nat) :
    ∀ (td : List TestCase) (r : ModeResults),
      (td.foldl (processCase retrieval judge discount k_values) r).failed_queries =
        r.failed_queries + td.countP (retrievalFails retrieval) := by
  intro td
  induction td with
  | nil => intro r; simp
  | cons c cs ih =>
    intro r
    rw [List.foldl_cons, ih, processCase_failed_queries, List.countP_cons]
    by_cases h : retrievalFails retrieval c <;> simp [h] <;> omega

/-- C4: on every answerable case (non-empty reference-context list) with a
deterministic judge, `calculate_recall` is exactly `0` or exactly `1`, and
its value is unchanged by replacing the reference contexts with any other
list of the same length — the individual reference context is never passed
to the judge. -/
theorem calculate_recall_zero_or_one (judge : Bool → String → String → String → Bool)
    (retrieved : List String) (question ground_truth : String)
    (gtcs : List String) (k : Option Nat) (hne : gtcs ≠ []) :
    (calculate_recall judge retrieved question ground_truth gtcs k = 0 ∨
     calculate_recall judge retrieved question ground_truth gtcs k = 1) ∧
    (∀ gtcs' : List String, gtcs'.length = gtcs.length →
      calculate_recall judge retrieved question ground_truth gtcs' k =
        calculate_recall judge retrieved question ground_truth gtcs k) := by
  constructor
  · rw [calculate_recall_const judge retrieved question ground_truth gtcs k hne]
    by_cases h : (match k with
        | some kv => retrieved.take kv
        | none => retrieved).any
        (fun ret_context => judge false question ground_truth ret_context) = true
    · right; rw [if_pos h]
    · left; rw [if_neg h]
  · intro gtcs' hlen
    have hne' : gtcs' ≠ [] := by
      intro hempty
      apply hne
      rw [hempty] at hlen
      exact List.length_eq_zero.mp hlen.symm
    rw [calculate_recall_const judge retrieved question ground_truth gtcs k hne,
      calculate_recall_const judge retrieved question ground_truth gtcs' k hne']

/-- Witness for C4 at a concrete two-context reference set. -/
theorem calculate_recall_zero_or_one_witness :
    (["c1", "c2"] : List String) ≠ [] ∧
    (calculate_recall judgeHit ["hit", "miss"] "q" "g" ["c1", "c2"] (some 1) = 0 ∨
     calculate_recall judgeHit ["hit", "miss"] "q" "g" ["c1", "c2"] (some 1) = 1) :=
  ⟨by simp,
    (calculate_recall_zero_or_one judgeHit ["hit", "miss"] "q" "g" ["c1", "c2"]
      (some 1) (by simp)).1⟩

/-- C5: for any swept threshold at most `0.5`, the whole-query abstention
overlay of `evaluate_threshold` rejects nothing: the reranked set was
produced with the default per-document cutoff `0.5`, so a non-empty result's
top score is already `>= 0.5`, and the rejected-query counter and rejection
rate stay `0`. -/
theorem low_threshold_never_rejects (oracle : String → String → ℚ)
    (merged : String → List Doc) (top_k : Nat) (threshold : ℚ)
    (questions : List String) (h : threshold ≤ RERANK_SCORE_THRESHOLD) :
    rejected_queries oracle merged top_k threshold questions = 0 ∧
    rejection_rate oracle merged top_k threshold questions = 0 := by
  have hq : ∀ q, overlay_rejects threshold
      (rerank_documents oracle q (merged q) top_k RERANK_SCORE_THRESHOLD) = false := by
    intro q
    cases hr : rerank_documents oracle q (merged q) top_k RERANK_SCORE_THRESHOLD with
    | nil => rfl
    | cons d rest =>
      have hd : RERANK_SCORE_THRESHOLD ≤ d.2 :=
        rerank_documents_score_ge oracle q (merged q) top_k RERANK_SCORE_THRESHOLD d
          (by rw [hr]; exact List.mem_cons_self _ _)
      simp only [overlay_rejects, decide_eq_false_iff_not, not_lt]
      exact le_trans h hd
  have h0 : rejected_queries oracle merged top_k threshold questions = 0 := by
    rw [rejected_queries]
    refine List.countP_eq_zero.mpr ?_
    intro q _
    simp [hq q]
  refine ⟨h0, ?_⟩
  rw [rejection_rate]
  by_cases hqs : questions = []
  · rw [if_pos hqs]
  · rw [if_neg hqs, h0]
    simp

/-- Witness for C5 at a concrete sub-0.5 threshold. -/
theorem low_threshold_never_rejects_witness :
    ((2 : ℚ)/5 ≤ RERANK_SCORE_THRESHOLD) ∧
    rejected_queries oracleA (fun _ => [docA]) 3 ((2 : ℚ)/5) ["q"] = 0 ∧
    rejection_rate oracleA (fun _ => [docA]) 3 ((2 : ℚ)/5) ["q"] = 0 :=
  ⟨by rw [RERANK_SCORE_THRESHOLD]; norm_num,
    low_threshold_never_rejects oracleA (fun _ => [docA]) 3 (2/5) ["q"]
      (by rw [RERANK_SCORE_THRESHOLD]; norm_num)⟩

/-- C7: for an unanswerable case with a non-empty `k_values` list, the
harness inspects only the first `min(k_values)` retrieved candidates; Noise
Robustness is `1.0` exactly when the unanswerable-framing judge marks none
of them relevant, `0.0` exactly when it marks one relevant, and the score
only depends on those first `min(k_values)` candidates. -/
theorem noise_robustness_top_mink (judge : Bool → String → String → String → Bool)
    (question ground_truth : String) (retrieved : List String)
    (k : Nat) (ks : List Nat) :
    (noise_robustness_score judge question ground_truth retrieved (k :: ks) = 1 ↔
      ∀ c ∈ retrieved.take (ks.foldl Nat.min k),
        judge true question ground_truth c = false) ∧
    (noise_robustness_score judge question ground_truth retrieved (k :: ks) = 0 ↔
      ∃ c ∈ retrieved.take (ks.foldl Nat.min k),
        judge true question ground_truth c = true) ∧
    noise_robustness_score judge question ground_truth retrieved (k :: ks) =
      noise_robustness_score judge question ground_truth
        (retrieved.take (ks.foldl Nat.min k)) (k :: ks) := by
  have htake : (retrieved.take (ks.foldl Nat.min k)).take (ks.foldl Nat.min k) =
      retrieved.take (ks.foldl Nat.min k) := by
    rw [List.take_take, Nat.min_self]
  cases hc : (retrieved.take (ks.foldl Nat.min k)).any
      (fun ret_context => judge true question ground_truth ret_context) with
  | true =>
    rcases List.any_eq_true.mp hc with ⟨c, hcmem, hcj⟩
    refine ⟨?_, ?_, ?_⟩
    · simp only [noise_robustness_score, hc]
      constructor
      · intro habs; exact absurd habs (by norm_num)
      · intro hall; exact absurd hcj (by simp [hall c hcmem])
    · simp only [noise_robustness_score, hc]
      exact ⟨fun _ => ⟨c, hcmem, hcj⟩, fun _ => rfl⟩
    · simp only [noise_robustness_score, htake, hc]
  | false =>
    have hall : ∀ c ∈ retrieved.take (ks.foldl Nat.min k),
        judge true question ground_truth c = false := by
      intro c hcmem
      by_contra hcj
      exact absurd hc (by simp [List.any_eq_true]; exact ⟨c, hcmem,
        eq_true_of_ne_false hcj⟩)
    refine ⟨?_, ?_, ?_⟩
    · simp only [noise_robustness_score, hc]
      exact ⟨fun _ => hall, fun _ => rfl⟩
    · simp only [noise_robustness_score, hc]
      constructor
      · intro habs; exact absurd habs (by norm_num)
      · rintro ⟨c, hcmem, hcj⟩
        exact absurd (hall c hcmem) (by simp [hcj])
    · simp only [noise_robustness_score, htake, hc]

/-- Witness for C7: an all-irrelevant judge gives Noise Robustness `1.0`. -/
theorem noise_robustness_top_mink_witness :
    noise_robustness_score judgeNone "q" "g" ["x", "y"] [3, 5, 10] = 1 :=
  (noise_robustness_top_mink judgeNone "q" "g" ["x", "y"] 3 [5, 10]).1.mpr
    (by intro c _; rfl)

/-- C8: a test case whose retrieval call raises is isolated — the failure
counter is incremented; an answerable case appends `0` to every `recall@k`
list and to the precision, MRR and NDCG lists; an unanswerable case appends
`0` to the noise-robustness list; the loop is a fold that always continues
with the remaining cases, and the final failure counter equals the number of
failing cases. -/
theorem batch_failure_isolated (retrieval : String → Except String (List Doc))
    (judge : Bool → String → String → String → Bool) (discount : Nat → ℚ)
    (k_values : List Nat) (item : TestCase) (e : String)
    (hfail : retrieval item.question = .error e) :
    (∀ r : ModeResults, item.ground_truth_context ≠ [] →
      processCase retrieval judge discount k_values r item =
        { r with answerable_queries := r.answerable_queries + 1,
                 failed_queries := r.failed_queries + 1,
                 recall_scores := r.recall_scores.map (fun p => (p.1, p.2 ++ [0])),
                 precision_scores := r.precision_scores ++ [0],
                 mrr_scores := r.mrr_scores ++ [0],
                 ndcg_scores := r.ndcg_scores ++ [0] }) ∧
    (∀ r : ModeResults, item.ground_truth_context = [] →
      processCase retrieval judge discount k_values r item =
        { r with unanswerable_queries := r.unanswerable_queries + 1,
                 failed_queries := r.failed_queries + 1,
                 noise_robustness_scores := r.noise_robustness_scores ++ [0] }) ∧
    (∀ td1 td2 : List TestCase,
      evaluate_retrieval_mode retrieval judge discount k_values (td1 ++ td2) =
        td2.foldl (processCase retrieval judge discount k_values)
          (evaluate_retrieval_mode retrieval judge discount k_values td1)) ∧
    (∀ td : List TestCase,
      (evaluate_retrieval_mode retrieval judge discount k_values td).failed_queries =
        td.countP (retrievalFails retrieval)) := by
  refine ⟨?_, ?_, ?_, ?_⟩
  · intro r hans
    simp [processCase, hfail, hans]
  · intro r hans
    simp [processCase, hfail, hans]
  · intro td1 td2
    rw [evaluate_retrieval_mode, evaluate_retrieval_mode, List.foldl_append]
  · intro td
    rw [evaluate_retrieval_mode,
      foldl_processCase_failed_queries retrieval judge discount k_values td
        (initResults k_values)]
    simp [initResults]

/-- Witness for C8: processing a concrete failing answerable case from the
initial state. -/
theorem batch_failure_isolated_witness :
    caseAns.ground_truth_context ≠ [] ∧
    processCase failRetrieval judgeNone (fun _ => (0 : ℚ)) [3]
        (initResults [3]) caseAns =
      { initResults [3] with
          answerable_queries := (initResults [3]).answerable_queries + 1,
          failed_queries := (initResults [3]).failed_queries + 1,
          recall_scores := (initResults [3]).recall_scores.map
            (fun p => (p.1, p.2 ++ [0])),
          precision_scores := (initResults [3]).precision_scores ++ [0],
          mrr_scores := (initResults [3]).mrr_scores ++ [0],
          ndcg_scores := (initResults [3]).ndcg_scores ++ [0] } :=
  ⟨by simp [caseAns],
    (batch_failure_isolated failRetrieval judgeNone (fun _ => (0 : ℚ)) [3]
      caseAns "db down" (by rfl)).1 (initResults [3]) (by simp [caseAns])⟩

end TripGuard
